import Mathlib

/- Verification development for the ampy interactive CLI session engine
   (src/ampy/cli_interactive.py).

   Python strings are modelled as Lean `String`; Python indexing and
   slicing act on code points, so they are embedded as operations on the
   underlying code-point list `String.data`.  Fallible Python code
   (statements that can raise) is embedded with `Except PyErr`. -/

/-- Python exception kinds raised or caught by the embedded code. -/
inductive PyErr where
  | indexError : PyErr
  | typeError : PyErr
  | fileNotFoundError : String → PyErr
  | runtimeError : String → PyErr
  | directoryExists : PyErr
deriving DecidableEq

/-- Python `s.split(sep)` for a one-character separator, on code-point
lists: every occurrence of the separator splits, empty pieces are kept
(`"".split(c) == ['']`). -/
def splitCh (sep : Char) : List Char → List (List Char)
  | [] => [[]]
  | c :: rest =>
    let s := splitCh sep rest
    if c = sep then [] :: s
    else (c :: s.headD []) :: s.tail

/-- Python `sep.join(parts)` for a one-character separator on code-point
lists. -/
def joinCh (sep : Char) : List (List Char) → List Char
  | [] => []
  | [x] => x
  | x :: y :: rest => x ++ sep :: joinCh sep (y :: rest)

/-- Python `str.split('/')`, producing the component strings' code-point
lists. -/
def splitSlashL (l : List Char) : List (List Char) := splitCh '/' l

/-- Python `'/'.join` on code-point lists. -/
def joinSlash (l : List (List Char)) : List Char := joinCh '/' l

/-- Python `s[:n]` (code-point prefix). -/
def pyTake (n : Nat) (s : String) : String := ⟨s.data.take n⟩

/-- Python `s[n:]` (code-point suffix). -/
def pyDrop (n : Nat) (s : String) : String := ⟨s.data.drop n⟩

/-- Python `s[0]`, `none` when the string is empty (where Python raises
`IndexError`; callers that can see an empty string model that raise
explicitly). -/
def pyFst (s : String) : Option Char := s.data.head?

/-- Python `s[-1]`, `none` when the string is empty. -/
def pyLast (s : String) : Option Char := s.data.getLast?

/-- Python `s.startswith(pre)`. -/
def pyStartsWith (s pre : String) : Bool := pre.data.isPrefixOf s.data

/-- Python `c in s` for a single character. -/
def pyContains (s : String) (c : Char) : Bool := decide (c ∈ s.data)

/-- Python `sep.join(parts)` at the `String` level (used for `" ".join`
and `"/".join` of path components). -/
def pyJoin (sep : String) : List String → String
  | [] => ""
  | [x] => x
  | x :: y :: rest => x ++ sep ++ pyJoin sep (y :: rest)

/-- One step of CPython `posixpath.normpath`'s component loop: skip empty
and `.` components; append a component unless it is a `..` that can pop a
previous real component off the stack. -/
def normStep (initSlashes : Nat) (acc : List (List Char)) (comp : List Char) :
    List (List Char) :=
  if comp = [] ∨ comp = ['.'] then acc
  else if comp ≠ ['.', '.'] ∨ (initSlashes = 0 ∧ acc = []) ∨
      (acc.getLast? = some ['.', '.']) then acc ++ [comp]
  else if acc ≠ [] then acc.dropLast
  else acc

/-- CPython `posixpath.normpath` on a code-point list: split on `/`, fold
the components with `normStep`, re-join, preserving one leading slash (or
exactly two, the POSIX special case), with `.` for an empty result. -/
def normpathL (p : List Char) : List Char :=
  if p = [] then ['.']
  else
    let initSlashes : Nat :=
      if p.take 1 = ['/'] then
        (if p.take 2 = ['/', '/'] ∧ ¬ p.take 3 = ['/', '/', '/'] then 2 else 1)
      else 0
    let comps := splitSlashL p
    let newComps := comps.foldl (normStep initSlashes) []
    let joined := List.replicate initSlashes '/' ++ joinSlash newComps
    if joined = [] then ['.'] else joined

/-- `os.path.normpath` (POSIX flavour, as used by the tool) on `String`. -/
def normpath (p : String) : String := ⟨normpathL p.data⟩

/-- Python `pico_wd.split('/')` as used inside `parse_dir`. -/
def splitSlashS (s : String) : List (List Char) := splitSlashL s.data

/-- Components re-joined with `'/'` as a `String`. -/
def joinSlashS (l : List (List Char)) : String := ⟨joinSlash l⟩

/-- `parse_dir` (cli_interactive.py lines 373-388), the remote path
resolver.  `pico_wd` is the session's current remote directory (the loop
guarantees it carries a trailing slash when `parse_dir` runs).  Raises
`IndexError` on an empty input (Python `d[0]`) and `FileNotFoundError`
when the normalized result contains `~`. -/
def parse_dir (my_d : String) (pico_wd : String) : Except PyErr String :=
  let pre : Except PyErr String :=
    if my_d = ".." then
      let parts := (splitSlashS pico_wd).dropLast.dropLast
      .ok (if parts.length > 1 then joinSlashS parts else "/")
    else if pyTake 3 my_d = "../" then
      let parts := (splitSlashS pico_wd).dropLast.dropLast
      let root := if parts.length > 1 then joinSlashS parts else ""
      .ok (root ++ pyDrop 2 my_d)
    else
      match my_d.data with
      | [] => .error .indexError
      | c :: _ => .ok (if c ≠ '/' then pico_wd ++ my_d else my_d)
  match pre with
  | .error e => .error e
  | .ok d =>
    let d := normpath d
    if pyContains d '~' then
      .error (.fileNotFoundError "Remote device has no home directory.")
    else .ok d

/-- The conflict-probe loop of the `put`/`put!` branch (lines 515-527):
walk the listing of `reference_dir`; for each entry record whether it is a
directory (first character `+`), rebuild its full path
(`reference_dir + f[2:]`) and stop at the first entry equal to `remote`.
`file_is_dir` keeps the last examined entry's kind when nothing matches,
exactly as in the source.  (Entries produced by `ls` are never empty, so
`f[0]` is modelled total via `pyFst`.) -/
def probe_loop (reference_dir remote : String) (file_exists file_is_dir : Bool) :
    List String → Bool × Bool
  | [] => (file_exists, file_is_dir)
  | f :: rest =>
    let fid := pyFst f == some '+'
    if reference_dir ++ pyDrop 2 f = remote then (true, fid)
    else probe_loop reference_dir remote file_exists fid rest

/-- The probe with the source's initial state `file_exists = False`,
`file_is_dir = False`. -/
def probe_put (listing : List String) (reference_dir remote : String) :
    Bool × Bool :=
  probe_loop reference_dir remote false false listing

/-- Outcome of the `put`/`put!` dispatch after the probe (lines 529-542). -/
inductive PutOutcome where
  | transfer : PutOutcome
  | noFile : PutOutcome
  | dirError : PutOutcome
  | fileExists : PutOutcome
deriving DecidableEq

/-- The decision of lines 530-542: transfer when
`(local is not None and not file_exists) or (command == "put!" and not
file_is_dir)` (Python precedence), else report which error applies. -/
def put_decision (forced localGiven : Bool) (pr : Bool × Bool) : PutOutcome :=
  if (localGiven && !pr.1) || (forced && !pr.2) then .transfer
  else if !localGiven then .noFile
  else if pr.1 && pr.2 then .dirError
  else .fileExists

/-- Target selection of `rm`/`rm!` with sole parameter `*` (line 759):
`[d[2:] for d in ls(pico_wd) if d[0] == '-']`. -/
def rm_star_targets (listing : List String) : List String :=
  listing.filterMap fun d =>
    if pyFst d = some '-' then some (pyDrop 2 d) else none

/-- Target selection of `rmdir`/`rmdir!` with sole parameter `*`
(line 729): `[d[2:] for d in ls(pico_wd) if d[0] == '+']`. -/
def rmdir_star_targets (listing : List String) : List String :=
  listing.filterMap fun d =>
    if pyFst d = some '+' then some (pyDrop 2 d) else none

mutual
/-- A local directory tree as `os.walk` sees it: the files directly in
the directory and the named subdirectories. -/
inductive LTree where
  | node : List String → LForest → LTree

/-- The ordered list of (name, subtree) children of a directory. -/
inductive LForest where
  | nil : LForest
  | cons : String → LTree → LForest → LForest
end

/-- A remote operation issued while putting a directory. -/
inductive POp where
  | mkdir : String → POp
  | upload : String → POp
deriving DecidableEq

/-- `posixpath.join(a, b)` for two components. -/
def pjoin (a b : String) : String :=
  if pyFst b = some '/' then b
  else if a = "" ∨ pyLast a = some '/' then a ++ b
  else a ++ "/" ++ b

/-- `os.path.relpath(parent, local)` for the walk: `"."` at the root,
otherwise the accumulated child names joined with `/`. -/
def rel_string (rel : List String) : String :=
  if rel = [] then "." else pyJoin "/" rel

/-- The remote directory mirroring walk position `rel`:
`posixpath.normpath(posixpath.join(remote, os.path.relpath(parent, local)))`
(lines 215-217). -/
def remote_parent_of (remote : String) (rel : List String) : String :=
  normpath (pjoin remote (rel_string rel))

mutual
/-- The operations the recursive-put loop (lines 213-233) issues for one
walked directory, top-down as `os.walk` yields it: first the mkdir of the
mirrored directory, then the uploads of its files
(`posixpath.join(remote_parent, filename)`), then the recursive walk of
its subdirectories. -/
def walkTree (remote : String) (rel : List String) : LTree → List POp
  | .node files dirs =>
    let rp := remote_parent_of remote rel
    POp.mkdir rp :: (files.map fun fn => POp.upload (pjoin rp fn)) ++
      walkForest remote rel dirs
/-- Walk of the subdirectory list, in order. -/
def walkForest (remote : String) (rel : List String) : LForest → List POp
  | .nil => []
  | .cons name t rest =>
    walkTree remote (rel ++ [name]) t ++ walkForest remote rel rest
end

/-- The full operation sequence of a recursive `put local remote`. -/
def put_dir_ops (remote : String) (t : LTree) : List POp :=
  walkTree remote [] t

/-- `files.Files.mkdir(path)` with `exists_okay=False`: raises
`DirectoryExistsError` when the directory already exists, otherwise
creates it (remote state modelled as the list of existing directories). -/
def mkdir_rpc (dirs : List String) (d : String) : Except PyErr (List String) :=
  if dirs.contains d then .error .directoryExists else .ok (d :: dirs)

/-- Execution of the planned operations against the remote state: every
mkdir is wrapped in `try ... except DirectoryExistsError: pass`
(lines 218-223), so an already-existing directory never aborts the copy;
uploads are collected in issue order. -/
def exec_ops (dirs : List String) : List POp → List String × List String
  | [] => (dirs, [])
  | POp.mkdir d :: rest =>
    let dirs' := match mkdir_rpc dirs d with
      | .ok ds => ds
      | .error _ => dirs
    exec_ops dirs' rest
  | POp.upload s :: rest =>
    let r := exec_ops dirs rest
    (r.1, s :: r.2)

/-- Claim C2's ordering property, "every mkdir is issued before any file
upload": once an upload appears, no mkdir may follow. -/
def mkdirs_all_first (ops : List POp) : Bool :=
  (ops.dropWhile fun op => match op with | .mkdir _ => true | _ => false).all
    fun op => match op with | .mkdir _ => false | _ => true

/-- Directory names already created when a list of operations has run:
mkdirs pushed onto `seen` in order. -/
def seenAfter (ops : List POp) (seen : List String) : List String :=
  ops.foldl (fun acc op => match op with | POp.mkdir d => d :: acc | _ => acc)
    seen

/-- Every upload in the list targets a path of the form `q ++ "/" ++ fn`
(a `posixpath.join`) for a directory `q` whose mkdir was already issued:
either before this list started (`seen`) or earlier in the list. -/
def uploadsCovered : List POp → List String → Prop
  | [], _ => True
  | POp.mkdir d :: rest, seen => uploadsCovered rest (d :: seen)
  | POp.upload s :: rest, seen =>
    (∃ q fn, q ∈ seen ∧ s = pjoin q fn) ∧ uploadsCovered rest seen

/-- The sample tree of the claim: local directory `a` holding `1.py` and
a subdirectory `b` holding `2.py`. -/
def sample_tree : LTree :=
  .node ["1.py"] (.cons "b" (.node ["2.py"] .nil) .nil)

/-- Python `l[i]` with an `int` index: negative indices count from the
end; out-of-range gives `none` (where Python raises `IndexError`). -/
def pyGet {α : Type} (l : List α) (i : Int) : Option α :=
  if i < 0 then
    if -i ≤ (l.length : Int) then l.get? (l.length - (-i).toNat) else none
  else l.get? i.toNat

/-- The printing loop of the `!` history display (lines 690-696): label
`l` counts down while the entries are printed in the stored order. -/
def show_loop : Nat → List (List String) → List String
  | _, [] => []
  | l, t :: rest =>
    (Nat.repr l ++ ": " ++ pyJoin " " t) :: show_loop (l - 1) rest

/-- The lines printed by the `!` command: `blurb = history[-10:]`,
printed in stored (chronological) order with labels `len(blurb)` down to
`1`. -/
def show_lines (hist : List (List String)) : List String :=
  let blurb := hist.drop (hist.length - 10)
  show_loop blurb.length blurb

/-- Modelled from the words of claim C7 ("producing them from most recent
to oldest (most recent printed first), each labeled ... starting at the
count of entries shown and decreasing to 1"): the last 10 entries
reversed so the most recent comes first, labels counting down.  Used only
to contrast with `show_lines`, the translation of the source. -/
def show_lines_claim_order (hist : List (List String)) : List String :=
  let blurb := (hist.drop (hist.length - 10)).reverse
  show_loop blurb.length blurb

/-- Python `"0" <= c <= "9"`-style digit test used by `str.isdigit` for
the caret-free ASCII command strings the CLI sees. -/
def is_digits (s : String) : Bool :=
  !s.data.isEmpty && s.data.all (·.isDigit)

/-- `int(s)` for a digit string. -/
def toNatS (s : String) : Nat :=
  s.data.foldl (fun n c => n * 10 + (c.toNat - '0'.toNat)) 0

/-- Result of dispatching one command: the new remote cwd, the replay
command queued for the next iteration (from the `!` family), and the
lines printed.  `Except` carries exceptions that the branch does not
catch and which therefore crash the session. -/
def dispatch (lsO : String → Except PyErr (List String)) (wd : String)
    (hist : List (List String)) (command : String) (params : List String) :
    Except PyErr (String × Option (List String) × List String) :=
  if command = "cd" then
    -- lines 575-588
    match params with
    | [] => .ok ("/", none, [])
    | [p] =>
      match parse_dir p wd with
      | .error e => .error e        -- parse_dir's exceptions are not caught here
      | .ok d =>
        match lsO d with
        | .ok _ => .ok (d, none, [])                      -- x = ls(d); pico_wd = d
        | .error (.runtimeError m) => .ok (wd, none, [m]) -- except RuntimeError
        | .error e => .error e
    | _ => .ok (wd, none, ["Malformed command"])
  else if command = "!" then
    -- lines 690-696: display history
    .ok (wd, none, show_lines hist)
  else if pyStartsWith command "!" then
    -- lines 697-722: queue a replay by index, `!!`, or by longest-recent
    -- prefix match
    let h0 := pyDrop 1 command
    let h_param := if params ≠ [] then h0 ++ " " ++ pyJoin " " params else h0
    if is_digits h_param then
      match pyGet hist (-(toNatS h_param : Int)) with
      | some t => .ok (wd, some t, [])
      | none =>
        .ok (wd, none,
          [if hist.length > 0 then
              "!" ++ h_param ++ " is invalid. Max is !" ++
                Nat.repr hist.length ++ "."
            else "History log is empty."])
    else if h_param = "!" then
      match hist.getLast? with
      | some t => .ok (wd, some t, [])
      | none => .ok (wd, none, ["History log is empty."])
    else
      match hist.reverse.find? (fun t => pyStartsWith (pyJoin " " t) h_param) with
      | some t => .ok (wd, some t, [])
      | none => .ok (wd, none, [])
  else
    -- Branches other than `cd` and the `!` family do not touch the
    -- session state this model tracks (pico_wd, history, queued replay)
    -- except through the shared history append below; their device I/O
    -- is outside this model.
    .ok (wd, none, [])

/-- Session state threaded through the loop: the history list, the
queued replay tokens, and the current remote directory. -/
structure SState where
  history : List (List String)
  queued : Option (List String)
  pico_wd : String
deriving DecidableEq

/-- One event at the input prompt: a typed line, end-of-input (EOFError)
or an interrupt (KeyboardInterrupt). -/
inductive InEv where
  | line : String → InEv
  | eof : InEv
  | intr : InEv
deriving DecidableEq

/-- Result of one loop iteration: continue with a new state (printing
some lines), leave via `exit()` from the EOFError handler, or crash on an
exception no handler catches (the state at that moment is recorded). -/
inductive StepRes where
  | cont : SState → List String → StepRes
  | exited : StepRes
  | crashed : PyErr → SState → StepRes
deriving DecidableEq

/-- `query.split(" ")` (line 445). -/
def tokensOf (l : String) : List String :=
  (splitCh ' ' l.data).map fun cs => ⟨cs⟩

/-- The tail of one iteration, after the command tokens are known:
dispatch, then append to history unless this turn consumed the replay
queue or the command starts with `!` (`block_history`, lines 439, 449,
689, 790-791). -/
def finishIter (lsO : String → Except PyErr (List String)) (wd : String)
    (hist : List (List String)) (consumedQueued : Bool)
    (tokens : List String) : StepRes :=
  let command := tokens.headD ""
  let params := tokens.tail
  match dispatch lsO wd hist command params with
  | .error e => .crashed e ⟨hist, none, wd⟩
  | .ok (wd', queued', out) =>
    let block := consumedQueued || pyStartsWith command "!"
    .cont ⟨(if block then hist else hist ++ [tokens]), queued', wd'⟩ out

/-- One iteration of the session loop (lines 437-797): restore the
trailing slash on `pico_wd`, then either consume the queued replay
(without reading input) or read one input event; EOFError exits,
KeyboardInterrupt is swallowed. -/
def runIter (lsO : String → Except PyErr (List String)) (st : SState)
    (ev : InEv) : StepRes :=
  let wd := if pyLast st.pico_wd ≠ some '/' then st.pico_wd ++ "/"
    else st.pico_wd
  match st.queued with
  | some q => finishIter lsO wd st.history true q
  | none =>
    match ev with
    | .eof => .exited
    | .intr => .cont ⟨st.history, none, wd⟩ []
    | .line l => finishIter lsO wd st.history false (tokensOf l)

/-- How the whole `cli_interactive` call ends, and whether the
`_board.close()` block (lines 799-807) ran.  The `while True` loop has no
`break`: the only ways out are the `exit()` call in the EOFError handler
(`SystemExit`) and an uncaught exception, and both propagate past the
close block, so it can never run. -/
inductive SessEnd where
  | terminated : Bool → SessEnd
  | crashedEnd : PyErr → Bool → SessEnd
  | fuelOut : SessEnd
deriving DecidableEq

/-- One scheduling step of the loop: when a replay is queued the
iteration runs without reading input (the event argument of `runIter` is
ignored on that path), otherwise one input event is consumed; an
exhausted script means the next `input()` raises EOFError. -/
def sessStep (lsO : String → Except PyErr (List String)) (st : SState)
    (evs : List InEv) : StepRes × List InEv :=
  match st.queued with
  | some _ => (runIter lsO st .eof, evs)
  | none =>
    match evs with
    | [] => (.exited, [])
    | ev :: rest => (runIter lsO st ev, rest)

/-- Run the session loop on a script of input events (fuel-bounded; the
real loop can replay indefinitely in principle).  The `Bool` in the
outcome records whether `_board.close()` was attempted: the `while True`
loop has no `break`, so control only ever leaves it through `exit()`
(SystemExit) or an uncaught exception, and either propagates past the
close block after the loop — hence `false` on every path. -/
def runSession (lsO : String → Except PyErr (List String)) :
    Nat → SState → List InEv → SessEnd
  | 0, _, _ => .fuelOut
  | fuel + 1, st, evs =>
    match sessStep lsO st evs with
    | (.cont st' _, rest) => runSession lsO fuel st' rest
    | (.exited, _) => .terminated false
    | (.crashed e _, _) => .crashedEnd e false

/-- Whether a session outcome ran the close block. -/
def sessClosed : SessEnd → Bool
  | .terminated b => b
  | .crashedEnd _ b => b
  | .fuelOut => false

/-- History list carried by an iteration result (`d` for the `exited`
case, where the process is gone and no history exists any more). -/
def resHist (r : StepRes) (d : List (List String)) : List (List String) :=
  match r with
  | .cont st _ => st.history
  | .crashed _ st => st.history
  | .exited => d

/-- Components each followed by a slash (the shape of a directory path
with a trailing slash, minus its leading slash). -/
def joinEach : List (List Char) → List Char
  | [] => []
  | c :: rest => c ++ '/' :: joinEach rest

/-- An absolute normalized directory with a trailing slash, the form in
which the loop stores `pico_wd` when commands run: `/` followed by each
component and a slash (`buildCwd [] = "/"`). -/
def buildCwd (cs : List (List Char)) : String := ⟨'/' :: joinEach cs⟩

/-- A clean path component: nonempty, slash-free, not `.` or `..`, and
free of `~`. -/
def cleanComp (c : List Char) : Prop :=
  c ≠ [] ∧ '/' ∉ c ∧ c ≠ ['.'] ∧ c ≠ ['.', '.'] ∧ '~' ∉ c

instance (c : List Char) : Decidable (cleanComp c) := by
  unfold cleanComp; infer_instance

/-- Components that `normStep` keeps rather than skips. -/
def isRealComp (c : List Char) : Bool :=
  if c = [] then false else if c = ['.'] then false else true

/-- Drop the components normalization skips (empty and `.`). -/
def filterClean (l : List (List Char)) : List (List Char) :=
  l.filter isRealComp


/-! Basic facts about the string model. -/

theorem str_data_append (s t : String) : (s ++ t).data = s.data ++ t.data := by
  cases s; cases t; rfl

theorem str_eta (s : String) : (⟨s.data⟩ : String) = s := by
  cases s; rfl

theorem pyFst_dash (n : String) : pyFst ("- " ++ n) = some '-' := by
  show (("- " ++ n).data).head? = some '-'
  rw [str_data_append]; rfl

theorem pyFst_plus (n : String) : pyFst ("+ " ++ n) = some '+' := by
  show (("+ " ++ n).data).head? = some '+'
  rw [str_data_append]; rfl

theorem pyDrop_two_dash (n : String) : pyDrop 2 ("- " ++ n) = n := by
  show (⟨(("- " ++ n).data).drop 2⟩ : String) = n
  rw [str_data_append]; exact str_eta n

theorem pyDrop_two_plus (n : String) : pyDrop 2 ("+ " ++ n) = n := by
  show (⟨(("+ " ++ n).data).drop 2⟩ : String) = n
  rw [str_data_append]; exact str_eta n

/-! C1: the put/put! conflict probe and overwrite decision. -/

theorem probe_loop_first_match (ref remote e : String) (l2 : List String) :
    ∀ (l1 : List String) (fe fid : Bool),
      (∀ e' ∈ l1, ref ++ pyDrop 2 e' ≠ remote) →
      ref ++ pyDrop 2 e = remote →
      probe_loop ref remote fe fid (l1 ++ e :: l2) =
        (true, pyFst e == some '+') := by
  intro l1
  induction l1 with
  | nil =>
    intro fe fid _ hm
    simp only [List.nil_append, probe_loop, if_pos hm]
  | cons a l1 ih =>
    intro fe fid hf hm
    have ha : ¬ (ref ++ pyDrop 2 a = remote) := hf a (List.mem_cons_self a l1)
    simp only [List.cons_append, probe_loop, if_neg ha]
    exact ih fe _ (fun e' he' => hf e' (List.mem_cons_of_mem a he')) hm

/-- C1: when the resolved remote target of a `put`/`put!` is found in the
listing of its reference directory as a directory entry (first matching
entry carries the `+` mark), both `put` and `put!` take the
directory-conflict error branch and do not transfer; when it is found as
a file entry, bare `put` takes the distinct file-exists error branch
while `put!` proceeds with the transfer. -/
theorem c1_put_conflict_policy (listing l1 l2 : List String)
    (e ref remote : String)
    (hsplit : listing = l1 ++ e :: l2)
    (hfirst : ∀ e' ∈ l1, ref ++ pyDrop 2 e' ≠ remote)
    (hmatch : ref ++ pyDrop 2 e = remote) :
    (pyFst e = some '+' →
      ∀ forced, put_decision forced true (probe_put listing ref remote) =
        PutOutcome.dirError) ∧
    (pyFst e = some '-' →
      put_decision false true (probe_put listing ref remote) =
          PutOutcome.fileExists ∧
        put_decision true true (probe_put listing ref remote) =
          PutOutcome.transfer) := by
  subst hsplit
  have hp := probe_loop_first_match ref remote e l2 l1 false false hfirst hmatch
  constructor
  · intro hplus forced
    have hpr : probe_put (l1 ++ e :: l2) ref remote = (true, true) := by
      rw [probe_put, hp, hplus]; rfl
    rw [hpr]; cases forced <;> rfl
  · intro hminus
    have hpr : probe_put (l1 ++ e :: l2) ref remote = (true, false) := by
      rw [probe_put, hp, hminus]; rfl
    rw [hpr]; exact ⟨rfl, rfl⟩

theorem c1_put_conflict_policy_witness :
    put_decision false true (probe_put ["+ x.py"] "/lib/" "/lib/x.py") =
        PutOutcome.dirError ∧
      put_decision true true (probe_put ["+ x.py"] "/lib/" "/lib/x.py") =
        PutOutcome.dirError ∧
      put_decision false true (probe_put ["- y.py"] "/lib/" "/lib/y.py") =
        PutOutcome.fileExists ∧
      put_decision true true (probe_put ["- y.py"] "/lib/" "/lib/y.py") =
        PutOutcome.transfer := by
  have hd := c1_put_conflict_policy ["+ x.py"] [] [] "+ x.py"
    "/lib/" "/lib/x.py" rfl (fun e' he' => absurd he' (List.not_mem_nil e'))
    (by decide)
  have hf := c1_put_conflict_policy ["- y.py"] [] [] "- y.py"
    "/lib/" "/lib/y.py" rfl (fun e' he' => absurd he' (List.not_mem_nil e'))
    (by decide)
  exact ⟨hd.1 rfl false, hd.1 rfl true, (hf.2 rfl).1, (hf.2 rfl).2⟩

/-! C5: wildcard target selection for rm! and rmdir!. -/

/-- C5: with sole parameter `*`, `rm!` selects for deletion exactly the
names listed with the `- ` (file) mark in the fresh listing of the
current remote directory, and `rmdir!` exactly the names listed with the
`+ ` (directory) mark; a name is selected by one command exactly when its
marked form is in the listing, so neither touches entries of the other
kind. -/
theorem c5_star_targets (listing : List String)
    (hwf : ∀ e ∈ listing, (∃ m, e = "- " ++ m) ∨ (∃ m, e = "+ " ++ m))
    (n : String) :
    (n ∈ rm_star_targets listing ↔ ("- " ++ n) ∈ listing) ∧
    (n ∈ rmdir_star_targets listing ↔ ("+ " ++ n) ∈ listing) := by
  constructor
  · constructor
    · intro hn
      obtain ⟨d, hd, hfd⟩ := List.mem_filterMap.mp hn
      rcases hwf d hd with ⟨m, hm⟩ | ⟨m, hm⟩
      · subst hm
        rw [if_pos (pyFst_dash m), pyDrop_two_dash] at hfd
        cases hfd; exact hd
      · subst hm
        rw [pyFst_plus m] at hfd
        simp at hfd
    · intro hmem
      exact List.mem_filterMap.mpr ⟨"- " ++ n, hmem, by
        rw [if_pos (pyFst_dash n), pyDrop_two_dash]⟩
  · constructor
    · intro hn
      obtain ⟨d, hd, hfd⟩ := List.mem_filterMap.mp hn
      rcases hwf d hd with ⟨m, hm⟩ | ⟨m, hm⟩
      · subst hm
        rw [pyFst_dash m] at hfd
        simp at hfd
      · subst hm
        rw [if_pos (pyFst_plus m), pyDrop_two_plus] at hfd
        cases hfd; exact hd
    · intro hmem
      exact List.mem_filterMap.mpr ⟨"+ " ++ n, hmem, by
        rw [if_pos (pyFst_plus n), pyDrop_two_plus]⟩

theorem c5_star_targets_witness :
    ("main.py" ∈ rm_star_targets ["+ libA", "- main.py", "- boot.py"]) ∧
      ¬ ("libA" ∈ rm_star_targets ["+ libA", "- main.py", "- boot.py"]) ∧
      ("libA" ∈ rmdir_star_targets ["+ libA", "- main.py", "- boot.py"]) := by
  have hwf : ∀ e ∈ (["+ libA", "- main.py", "- boot.py"] : List String),
      (∃ m, e = "- " ++ m) ∨ (∃ m, e = "+ " ++ m) := by
    intro e he
    simp only [List.mem_cons, List.not_mem_nil, or_false] at he
    rcases he with h | h | h
    · exact .inr ⟨"libA", by rw [h]; decide⟩
    · exact .inl ⟨"main.py", by rw [h]; decide⟩
    · exact .inl ⟨"boot.py", by rw [h]; decide⟩
  refine ⟨?_, ?_, ?_⟩
  · exact (c5_star_targets _ hwf "main.py").1.mpr (by decide)
  · intro hc
    have := (c5_star_targets _ hwf "libA").1.mp hc
    revert this; decide
  · exact (c5_star_targets _ hwf "libA").2.mpr (by decide)

/-! C2: ordering of mkdir and upload operations in a recursive put. -/

theorem uploadsCovered_mono (ops : List POp) :
    ∀ s1 s2 : List String, s1 ⊆ s2 →
      uploadsCovered ops s1 → uploadsCovered ops s2 := by
  induction ops with
  | nil => intro s1 s2 _ _; trivial
  | cons op rest ih =>
    cases op with
    | mkdir d =>
      intro s1 s2 hsub h
      exact ih (d :: s1) (d :: s2) (List.cons_subset_cons d hsub) h
    | upload s =>
      intro s1 s2 hsub h
      obtain ⟨⟨q, fn, hq, hs⟩, hrest⟩ := h
      exact ⟨⟨q, fn, hsub hq, hs⟩, ih s1 s2 hsub hrest⟩

theorem seenAfter_cons_mkdir (d : String) (rest : List POp) (seen : List String) :
    seenAfter (POp.mkdir d :: rest) seen = seenAfter rest (d :: seen) := rfl

theorem seenAfter_cons_upload (s : String) (rest : List POp) (seen : List String) :
    seenAfter (POp.upload s :: rest) seen = seenAfter rest seen := rfl

theorem uploadsCovered_append (a : List POp) :
    ∀ (b : List POp) (seen : List String),
      uploadsCovered a seen → uploadsCovered b (seenAfter a seen) →
      uploadsCovered (a ++ b) seen := by
  induction a with
  | nil => intro b seen _ hb; exact hb
  | cons op rest ih =>
    cases op with
    | mkdir d =>
      intro b seen ha hb
      exact ih b (d :: seen) ha hb
    | upload s =>
      intro b seen ha hb
      obtain ⟨hx, ha'⟩ := ha
      exact ⟨hx, ih b seen ha' hb⟩

theorem seenAfter_uploads (f : String → String) (files : List String)
    (seen : List String) :
    seenAfter (files.map fun fn => POp.upload (f fn)) seen = seen := by
  induction files with
  | nil => rfl
  | cons fn rest ih => simpa [seenAfter] using ih

theorem uploadsCovered_uploads (rp : String) (files : List String)
    (seen : List String) (h : rp ∈ seen) :
    uploadsCovered (files.map fun fn => POp.upload (pjoin rp fn)) seen := by
  induction files with
  | nil => trivial
  | cons fn rest ih => exact ⟨⟨rp, fn, h, rfl⟩, ih⟩

mutual
theorem walkTree_covered (remote : String) (rel : List String) (t : LTree)
    (seen : List String) : uploadsCovered (walkTree remote rel t) seen := by
  cases t with
  | node files dirs =>
    rw [walkTree]
    show uploadsCovered
      ((files.map fun fn => POp.upload (pjoin (remote_parent_of remote rel) fn)) ++
        walkForest remote rel dirs) (remote_parent_of remote rel :: seen)
    apply uploadsCovered_append
    · exact uploadsCovered_uploads _ files _ (List.mem_cons_self _ _)
    · rw [seenAfter_uploads]
      exact walkForest_covered remote rel dirs _
theorem walkForest_covered (remote : String) (rel : List String) (f : LForest)
    (seen : List String) : uploadsCovered (walkForest remote rel f) seen := by
  cases f with
  | nil => trivial
  | cons name t rest =>
    rw [walkForest]
    apply uploadsCovered_append
    · exact walkTree_covered remote (rel ++ [name]) t seen
    · exact walkForest_covered remote rel rest _
end

/-- C2 (amended): during a recursive put, each directory's mkdir is
issued before any upload into it — every upload in the operation sequence
targets `posixpath.join(q, filename)` for a directory `q` whose mkdir
appears earlier — but mkdirs of subdirectories come after uploads of
files higher in the tree: for the sample tree `a/{1.py, b/2.py}` put onto
`/lib`, the order is mkdir `/lib`, upload `/lib/1.py`, mkdir `/lib/b`,
upload `/lib/b/2.py`.  A mkdir that fails because the directory already
exists is caught (`except DirectoryExistsError: pass`), so with `/lib`
pre-existing the copy still performs both uploads. -/
theorem c2_put_order_amended :
    (∀ (remote : String) (t : LTree) (seen : List String),
        uploadsCovered (put_dir_ops remote t) seen) ∧
    put_dir_ops "/lib" sample_tree =
      [POp.mkdir "/lib", POp.upload "/lib/1.py", POp.mkdir "/lib/b",
        POp.upload "/lib/b/2.py"] ∧
    (exec_ops ["/lib"] (put_dir_ops "/lib" sample_tree)).2 =
      ["/lib/1.py", "/lib/b/2.py"] := by
  refine ⟨fun remote t seen => walkTree_covered remote [] t seen, ?_, ?_⟩
  · decide
  · decide

/-- C2 counterexample: the claim states mkdir of both `/lib` and `/lib/b`
are issued before any upload; in fact `1.py` is uploaded before
`/lib/b` is created, so the operation sequence does not place all mkdirs
first. -/
theorem c2_counterexample :
    put_dir_ops "/lib" sample_tree =
      [POp.mkdir "/lib", POp.upload "/lib/1.py", POp.mkdir "/lib/b",
        POp.upload "/lib/b/2.py"] ∧
    mkdirs_all_first (put_dir_ops "/lib" sample_tree) = false := by
  constructor
  · decide
  · decide

/-! C3, C4: counterexamples to the claimed path-resolution properties. -/

/-- C3 counterexample: one leading `../` ascends from `/a/b/c` to its
parent `/a/b`, but `../../x` resolves to `/a/x` — outside `/a/b` — so the
additional leading `../` segment does ascend a further level
(`os.path.normpath` resolves the `..` left in the concatenation). -/
theorem c3_counterexample :
    parse_dir "../x" "/a/b/c/" = .ok "/a/b/x" ∧
    parse_dir "../../x" "/a/b/c/" = .ok "/a/x" ∧
    pyStartsWith "/a/x" "/a/b" = false := ⟨rfl, rfl, rfl⟩

/-- C4 counterexample: `x/../../y` neither starts with `/` nor with `..`,
yet resolved against cwd `/a/` it yields `/y`, which does not have the
cwd (in either its trailing-slash or canonical form) as a string
prefix. -/
theorem c4_counterexample :
    pyStartsWith "x/../../y" "/" = false ∧
    pyStartsWith "x/../../y" ".." = false ∧
    parse_dir "x/../../y" "/a/" = .ok "/y" ∧
    pyStartsWith "/y" "/a/" = false ∧
    pyStartsWith "/y" "/a" = false := ⟨rfl, rfl, rfl, rfl, rfl⟩

/-! C7: the history display. -/

/-- C7 counterexample: with history `[["a"], ["b"]]` (so `b` is the most
recent entry), the `!` display prints `2: a` then `1: b` — stored order,
oldest of the shown entries first — whereas the claimed most-recent-first
order with labels starting at the count would print `2: b` then
`1: a`. -/
theorem c7_counterexample :
    show_lines [["a"], ["b"]] = ["2: a", "1: b"] ∧
    show_lines_claim_order [["a"], ["b"]] = ["2: b", "1: a"] ∧
    show_lines [["a"], ["b"]] ≠ show_lines_claim_order [["a"], ["b"]] := by
  refine ⟨by decide, by decide, by decide⟩

theorem show_loop_length (blurb : List (List String)) :
    ∀ l, (show_loop l blurb).length = blurb.length := by
  induction blurb with
  | nil => intro l; rfl
  | cons t rest ih => intro l; simpa [show_loop] using ih (l - 1)

theorem show_loop_get (blurb : List (List String)) :
    ∀ l i, (show_loop l blurb).get? i =
      (blurb.get? i).map fun t => Nat.repr (l - i) ++ ": " ++ pyJoin " " t := by
  induction blurb with
  | nil => intro l i; rfl
  | cons t rest ih =>
    intro l i
    cases i with
    | zero => rfl
    | succ i =>
      show (show_loop (l - 1) rest).get? i = _
      rw [ih (l - 1) i]
      have : l - 1 - i = l - (i + 1) := by omega
      rw [this]; rfl

/-- C7 (amended): the `!` display shows the `min(len(history), 10)` most
recent entries in stored (chronological) order — the most recent entry is
printed last — and the label of each line is that entry's 1-based recency
index: the entry `history[-k]` (the one `!k` recalls) is printed at
position `count - k` with label `k`, so labels count down from the number
of entries shown to `1`. -/
theorem c7_show_amended (hist : List (List String)) :
    (show_lines hist).length = min hist.length 10 ∧
    ∀ (k : Nat) (t : List String), 1 ≤ k → k ≤ min hist.length 10 →
      pyGet hist (-(k : Int)) = some t →
      (show_lines hist).get? (min hist.length 10 - k) =
        some (Nat.repr k ++ ": " ++ pyJoin " " t) := by
  have hlen : (hist.drop (hist.length - 10)).length = min hist.length 10 := by
    rw [List.length_drop]; omega
  constructor
  · rw [show_lines, show_loop_length, hlen]
  · intro k t hk1 hk2 hget
    have hkn : k ≤ hist.length := le_trans hk2 (Nat.min_le_left _ _)
    have hneg : (-(k : Int)) < 0 := by omega
    have hle : -(-(k : Int)) ≤ (hist.length : Int) := by
      simp only [neg_neg]; exact_mod_cast hkn
    rw [pyGet, if_pos hneg, if_pos hle] at hget
    have htn : (-(-(k : Int))).toNat = k := by
      simp only [neg_neg, Int.toNat_natCast]
    rw [htn] at hget
    rw [show_lines, show_loop_get, hlen]
    have hdrop : (hist.drop (hist.length - 10)).get? (min hist.length 10 - k) =
        hist.get? (hist.length - k) := by
      rw [List.get?_drop]
      congr 1
      omega
    rw [hdrop, hget]
    have : min hist.length 10 - (min hist.length 10 - k) = k := by omega
    rw [this]; rfl

theorem c7_show_amended_witness :
    (show_lines [["a"], ["b"]]).get? 1 = some ("1: b") := by
  have h := (c7_show_amended [["a"], ["b"]]).2 1 ["b"] (by decide) (by decide)
    (by decide)
  simpa using h


/-! C6: history discipline of the session loop. -/

theorem resHist_finishIter_block (lsO : String → Except PyErr (List String))
    (wd : String) (hist : List (List String)) (cq : Bool)
    (tokens : List String)
    (hblock : (cq || pyStartsWith (tokens.headD "") "!") = true) :
    resHist (finishIter lsO wd hist cq tokens) hist = hist := by
  rw [finishIter]
  rcases hd : dispatch lsO wd hist (tokens.headD "") tokens.tail with
    e | ⟨wd', queued', out⟩
  · rfl
  · simp only [resHist, hblock, if_true]

theorem finishIter_noblock (lsO : String → Except PyErr (List String))
    (wd : String) (hist : List (List String)) (tokens : List String)
    (hblock : pyStartsWith (tokens.headD "") "!" = false) :
    (∀ st' out, finishIter lsO wd hist false tokens = .cont st' out →
        st'.history = hist ++ [tokens]) ∧
    (∀ e st', finishIter lsO wd hist false tokens = .crashed e st' →
        st'.history = hist) := by
  rw [finishIter]
  rcases hd : dispatch lsO wd hist (tokens.headD "") tokens.tail with
    e | ⟨wd', queued', out⟩
  · constructor
    · intro st' out h; exact absurd h (by simp)
    · intro e' st' h
      injection h with h1 h2
      rw [← h2]
  · constructor
    · intro st' out h
      simp only [Bool.false_or, hblock] at h
      injection h with h1 h2
      rw [← h1]
      rfl
    · intro e' st' h
      exact absurd h (by simp)

/-- C6: an iteration that consumes the replay queue, or whose typed
command starts with `!`, leaves the history list exactly as it was
(`block_history`, lines 439, 449, 689, 790-791); a typed line whose
command does not start with `!` is appended when the iteration completes,
and nothing is appended when the iteration dies on an uncaught
exception. -/
theorem c6_history_discipline (lsO : String → Except PyErr (List String))
    (st : SState) :
    (∀ q, st.queued = some q → ∀ ev,
        resHist (runIter lsO st ev) st.history = st.history) ∧
    (st.queued = none → ∀ l,
        pyStartsWith ((tokensOf l).headD "") "!" = true →
        resHist (runIter lsO st (.line l)) st.history = st.history) ∧
    (st.queued = none → ∀ l,
        pyStartsWith ((tokensOf l).headD "") "!" = false →
        (∀ st' out, runIter lsO st (.line l) = .cont st' out →
            st'.history = st.history ++ [tokensOf l]) ∧
        (∀ e st', runIter lsO st (.line l) = .crashed e st' →
            st'.history = st.history)) := by
  refine ⟨?_, ?_, ?_⟩
  · intro q hq ev
    rw [runIter.eq_def, hq]
    exact resHist_finishIter_block lsO _ st.history true q (by simp)
  · intro hq l hbang
    rw [runIter.eq_def, hq]
    exact resHist_finishIter_block lsO _ st.history false (tokensOf l)
      (by simpa using hbang)
  · intro hq l hbang
    rw [runIter.eq_def, hq]
    exact finishIter_noblock lsO _ st.history (tokensOf l) hbang

theorem c6_history_discipline_witness :
    resHist (runIter (fun _ => .ok []) ⟨[["ls"]], some ["pwd"], "/"⟩ .eof)
      [["ls"]] = [["ls"]] :=
  (c6_history_discipline (fun _ => .ok []) ⟨[["ls"]], some ["pwd"], "/"⟩).1
    ["pwd"] rfl .eof

/-! C8: a malformed command can crash the whole session. -/

/-- C8 (code evaluated at the failing input): typing `cd ` (the verb with
an empty path argument) makes `parse_dir` evaluate `d[0]` on the empty
string; the resulting IndexError is caught neither by the `cd` branch nor
by the loop's handlers (which catch only KeyboardInterrupt and EOFError),
so the iteration ends in a crash that terminates the session, with no
line of the input consumed afterwards. -/
theorem c8_empty_path_crashes :
    runIter (fun _ => .ok []) ⟨[], none, "/"⟩ (.line "cd ") =
      .crashed PyErr.indexError ⟨[], none, "/"⟩ ∧
    runSession (fun _ => .ok []) 2 ⟨[], none, "/"⟩ [.line "cd ", .line "pwd"] =
      .crashedEnd PyErr.indexError false := by
  constructor
  · decide
  · decide

/-! C9: the close block after the loop is unreachable. -/

/-- C9: however the session ends — end-of-input (the EOFError handler
calls `exit()`, raising SystemExit) or an uncaught exception — control
leaves `cli_interactive` exceptionally, skipping the
`_board.close()` block placed after the non-breaking `while True` loop;
the board is never closed, and in particular a session that just reaches
end-of-input terminates without attempting the close. -/
theorem c9_close_never_attempted :
    (∀ (lsO : String → Except PyErr (List String)) (fuel : Nat) (st : SState)
        (evs : List InEv), sessClosed (runSession lsO fuel st evs) = false) ∧
    runSession (fun _ => .ok []) 1 ⟨[], none, "/"⟩ [] = .terminated false := by
  constructor
  · intro lsO fuel
    induction fuel with
    | zero => intro st evs; rfl
    | succ n ih =>
      intro st evs
      rcases h : sessStep lsO st evs with ⟨⟨st', out⟩ | _ | ⟨e, st'⟩, rest⟩ <;>
        simp only [runSession, h]
      · exact ih st' rest
      · rfl
      · rfl
  · rfl

/-! C10: cd switches the current directory only after a successful
listing. -/

/-- C10: for `cd` with exactly one argument, the branch runs
`x = ls(d); pico_wd = d` inside `try`: the session's directory becomes
the resolved target only when the listing succeeds; a listing failure —
whether the caught RuntimeError (reported, loop continues) or any other
exception (which crashes the iteration) — leaves the current directory
unchanged. -/
theorem c10_cd_atomic (lsO : String → Except PyErr (List String))
    (wd : String) (hist : List (List String)) (arg d : String)
    (hres : parse_dir arg wd = .ok d) :
    (∀ files, lsO d = .ok files →
        dispatch lsO wd hist "cd" [arg] = .ok (d, none, [])) ∧
    (∀ m, lsO d = .error (.runtimeError m) →
        dispatch lsO wd hist "cd" [arg] = .ok (wd, none, [m])) ∧
    (∀ e, lsO d = .error e → (∀ m, e ≠ .runtimeError m) →
        dispatch lsO wd hist "cd" [arg] = .error e) := by
  refine ⟨?_, ?_, ?_⟩
  · intro files hls
    simp [dispatch, hres, hls]
  · intro m hls
    simp [dispatch, hres, hls]
  · intro e hls hne
    cases e with
    | runtimeError m => exact absurd rfl (hne m)
    | indexError => simp [dispatch, hres, hls]
    | typeError => simp [dispatch, hres, hls]
    | fileNotFoundError m => simp [dispatch, hres, hls]
    | directoryExists => simp [dispatch, hres, hls]

theorem c10_cd_atomic_witness :
    dispatch (fun _ => .error (.runtimeError "no such directory")) "/" []
        "cd" ["lib"] = .ok ("/", none, ["no such directory"]) ∧
    dispatch (fun _ => .ok ["- main.py"]) "/" [] "cd" ["lib"] =
        .ok ("/lib", none, []) := by
  constructor
  · exact (c10_cd_atomic (fun _ => .error (.runtimeError "no such directory"))
      "/" [] "lib" "/lib" rfl).2.1 "no such directory" rfl
  · exact (c10_cd_atomic (fun _ => .ok ["- main.py"])
      "/" [] "lib" "/lib" rfl).1 ["- main.py"] rfl

/-! Lemma base for reasoning about split/join/normpath on structured
paths (used for the amended C3 and C4 statements). -/

theorem splitCh_sep_cons (sep : Char) (r : List Char) :
    splitCh sep (sep :: r) = [] :: splitCh sep r := by
  simp [splitCh]

theorem splitCh_ne_nil (sep : Char) (l : List Char) : splitCh sep l ≠ [] := by
  cases l with
  | nil => simp [splitCh]
  | cons c rest =>
    by_cases h : c = sep <;> simp [splitCh, h]

theorem splitCh_no_sep (sep : Char) (a : List Char) (h : sep ∉ a) :
    splitCh sep a = [a] := by
  induction a with
  | nil => rfl
  | cons c a' ih =>
    have hc : ¬ c = sep := fun hcs => h (hcs ▸ List.mem_cons_self c a')
    have ha' : sep ∉ a' := fun hm => h (List.mem_cons_of_mem c hm)
    simp [splitCh, hc, ih ha']

theorem splitCh_append (sep : Char) (a r : List Char) (h : sep ∉ a) :
    splitCh sep (a ++ sep :: r) = a :: splitCh sep r := by
  induction a with
  | nil => simp [splitCh]
  | cons c a' ih =>
    have hc : ¬ c = sep := fun hcs => h (hcs ▸ List.mem_cons_self c a')
    have ha' : sep ∉ a' := fun hm => h (List.mem_cons_of_mem c hm)
    simp [splitCh, hc, ih ha']

theorem joinCh_cons_of_ne (sep : Char) (x : List Char)
    (rest : List (List Char)) (h : rest ≠ []) :
    joinCh sep (x :: rest) = x ++ sep :: joinCh sep rest := by
  cases rest with
  | nil => exact absurd rfl h
  | cons y rest' => rfl

theorem joinCh_append (sep : Char) (cs : List (List Char)) :
    ∀ qs : List (List Char), cs ≠ [] → qs ≠ [] →
      joinCh sep (cs ++ qs) = joinCh sep cs ++ sep :: joinCh sep qs := by
  induction cs with
  | nil => intro qs hc _; exact absurd rfl hc
  | cons x cs' ih =>
    intro qs _ hq
    cases cs' with
    | nil => rw [List.singleton_append, joinCh_cons_of_ne sep x qs hq]; rfl
    | cons y cs'' =>
      have hne : (y :: cs'') ++ qs ≠ [] := by simp
      rw [List.cons_append, joinCh_cons_of_ne sep x _ hne,
        ih qs (by simp) hq, joinCh_cons_of_ne sep x (y :: cs'') (by simp)]
      simp

theorem mem_of_mem_splitCh (sep : Char) (a : Char) :
    ∀ (l : List Char) (c : List Char),
      c ∈ splitCh sep l → a ∈ c → a ∈ l := by
  intro l
  induction l with
  | nil =>
    intro c hc ha
    simp [splitCh] at hc
    subst hc
    cases ha
  | cons d r ih =>
    intro c hc ha
    by_cases hd : d = sep
    · rw [hd, splitCh_sep_cons] at hc
      rcases List.mem_cons.mp hc with h | h
      · subst h; cases ha
      · exact List.mem_cons_of_mem _ (ih c h ha)
    · rcases hsh : splitCh sep r with _ | ⟨hd', tl⟩
      · exact absurd hsh (splitCh_ne_nil sep r)
      · rw [show splitCh sep (d :: r) = (d :: hd') :: tl by
          simp [splitCh, hd, hsh]] at hc
        rcases List.mem_cons.mp hc with h | h
        · subst h
          rcases List.mem_cons.mp ha with h' | h'
          · exact h' ▸ List.mem_cons_self d r
          · exact List.mem_cons_of_mem _
              (ih hd' (hsh ▸ List.mem_cons_self hd' tl) h')
        · exact List.mem_cons_of_mem _
            (ih c (hsh ▸ List.mem_cons_of_mem hd' h) ha)

theorem mem_joinCh (sep : Char) (a : Char) :
    ∀ ps : List (List Char), a ∈ joinCh sep ps →
      a = sep ∨ ∃ p ∈ ps, a ∈ p := by
  intro ps
  induction ps with
  | nil => intro h; cases h
  | cons x rest ih =>
    intro h
    cases rest with
    | nil => exact .inr ⟨x, List.mem_cons_self x [], h⟩
    | cons y rest' =>
      rw [joinCh_cons_of_ne sep x (y :: rest') (by simp)] at h
      rcases List.mem_append.mp h with h' | h'
      · exact .inr ⟨x, List.mem_cons_self x _, h'⟩
      · rcases List.mem_cons.mp h' with h'' | h''
        · exact .inl h''
        · rcases ih h'' with h3 | ⟨p, hp, hap⟩
          · exact .inl h3
          · exact .inr ⟨p, List.mem_cons_of_mem x hp, hap⟩

theorem joinEach_eq_joinSlash (cs : List (List Char)) (h : cs ≠ []) :
    joinEach cs = joinSlash cs ++ ['/'] := by
  induction cs with
  | nil => exact absurd rfl h
  | cons c cs' ih =>
    cases cs' with
    | nil => rfl
    | cons d cs'' =>
      rw [joinEach, ih (by simp)]
      rw [show joinSlash (c :: d :: cs'') = c ++ '/' :: joinSlash (d :: cs'')
        from joinCh_cons_of_ne '/' c (d :: cs'') (by simp)]
      simp

theorem splitSlash_joinEach_append (cs : List (List Char)) (r : List Char)
    (h : ∀ c ∈ cs, '/' ∉ c) :
    splitSlashL (joinEach cs ++ r) = cs ++ splitSlashL r := by
  induction cs with
  | nil => rfl
  | cons c cs' ih =>
    have hc : '/' ∉ c := h c (List.mem_cons_self c cs')
    have h' : ∀ c' ∈ cs', '/' ∉ c' := fun c' hm => h c' (List.mem_cons_of_mem c hm)
    rw [joinEach, List.append_assoc, List.cons_append]
    rw [show splitSlashL (c ++ ('/' :: (joinEach cs' ++ r))) =
      c :: splitSlashL (joinEach cs' ++ r) from splitCh_append '/' c _ hc]
    rw [ih h', List.cons_append]

theorem splitSlash_joinSlash_append (cs : List (List Char)) (r : List Char)
    (hne : cs ≠ []) (h : ∀ c ∈ cs, '/' ∉ c) :
    splitSlashL (joinSlash cs ++ '/' :: r) = cs ++ splitSlashL r := by
  have : joinSlash cs ++ '/' :: r = joinEach cs ++ r := by
    rw [joinEach_eq_joinSlash cs hne]; simp
  rw [this, splitSlash_joinEach_append cs r h]

theorem foldl_normStep_no_dotdot (i : Nat) :
    ∀ (l : List (List Char)), (∀ c ∈ l, c ≠ ['.', '.']) →
      ∀ acc, l.foldl (normStep i) acc = acc ++ filterClean l := by
  intro l
  induction l with
  | nil => intro _ acc; simp [filterClean]
  | cons c rest ih =>
    intro h acc
    have hc : c ≠ ['.', '.'] := h c (List.mem_cons_self c rest)
    have h' : ∀ c' ∈ rest, c' ≠ ['.', '.'] :=
      fun c' hm => h c' (List.mem_cons_of_mem c hm)
    by_cases hskip : c = [] ∨ c = ['.']
    · have hstep : normStep i acc c = acc := by rw [normStep, if_pos hskip]
      have hreal : isRealComp c = false := by
        rcases hskip with h1 | h1 <;> simp [isRealComp, h1]
      have hfc : filterClean (c :: rest) = filterClean rest := by
        simp [filterClean, List.filter_cons, hreal]
      rw [List.foldl_cons, hstep, ih h' acc, hfc]
    · have hstep : normStep i acc c = acc ++ [c] := by
        rw [normStep, if_neg hskip, if_pos (Or.inl hc)]
      have hreal : isRealComp c = true := by
        push_neg at hskip
        simp [isRealComp, hskip.1, hskip.2]
      have hfc : filterClean (c :: rest) = c :: filterClean rest := by
        simp [filterClean, List.filter_cons, hreal]
      rw [List.foldl_cons, hstep, ih h' (acc ++ [c]), hfc, List.append_assoc]
      rfl

theorem filterClean_of_clean (cs : List (List Char))
    (h : ∀ c ∈ cs, cleanComp c) : filterClean cs = cs := by
  induction cs with
  | nil => rfl
  | cons c cs' ih =>
    have hc := h c (List.mem_cons_self c cs')
    have hreal : isRealComp c = true := by
      simp [isRealComp, hc.1, hc.2.2.1]
    have hfc : filterClean (c :: cs') = c :: filterClean cs' := by
      simp [filterClean, List.filter_cons, hreal]
    rw [hfc, ih (fun c' hm => h c' (List.mem_cons_of_mem c hm))]

theorem exists_head_ne_slash (c r : List Char) (hne : c ≠ [])
    (hns : '/' ∉ c) : ∃ x xs, c ++ r = x :: xs ∧ x ≠ '/' := by
  cases c with
  | nil => exact absurd rfl hne
  | cons a c' =>
    exact ⟨a, c' ++ r, rfl, fun h => hns (h ▸ List.mem_cons_self a c')⟩

theorem normpathL_abs (x : Char) (xs : List Char) (hx : x ≠ '/') :
    normpathL ('/' :: x :: xs) =
      '/' :: joinSlash ((splitSlashL (x :: xs)).foldl (normStep 1) []) := by
  have hne : ¬('/' :: x :: xs) = ([] : List Char) := by simp
  have htake1 : ('/' :: x :: xs).take 1 = ['/'] := rfl
  have htake2 : ¬(('/' :: x :: xs).take 2 = ['/', '/'] ∧
      ¬('/' :: x :: xs).take 3 = ['/', '/', '/']) := by
    intro h
    have h2 := h.1
    simp only [List.take_succ_cons, List.take_zero] at h2
    exact hx (by injection h2 with _ h3; injection h3)
  rw [normpathL, if_neg hne]
  dsimp only
  rw [if_pos htake1, if_neg htake2]
  rw [show splitSlashL ('/' :: x :: xs) = [] :: splitSlashL (x :: xs) from
    splitCh_sep_cons '/' (x :: xs)]
  rw [List.foldl_cons]
  rw [show normStep 1 [] [] = [] from rfl]
  simp

theorem str_mk_append (a b : List Char) :
    (⟨a⟩ : String) ++ (⟨b⟩ : String) = ⟨a ++ b⟩ := rfl

theorem joinSlash_append (cs qs : List (List Char)) (hc : cs ≠ [])
    (hq : qs ≠ []) :
    joinSlash (cs ++ qs) = joinSlash cs ++ '/' :: joinSlash qs :=
  joinCh_append '/' cs qs hc hq

theorem joinSlash_cons_of_ne (x : List Char) (rest : List (List Char))
    (h : rest ≠ []) : joinSlash (x :: rest) = x ++ '/' :: joinSlash rest :=
  joinCh_cons_of_ne '/' x rest h

theorem splitSlash_no_sep (a : List Char) (h : '/' ∉ a) :
    splitSlashL a = [a] :=
  splitCh_no_sep '/' a h

/-- C4 (amended): the claimed containment fails for relative paths whose
inner components include `..` (they can escape the cwd entirely) and for
paths that normalize away completely (such as `.`); it holds once the
relative path contains no `..` component and at least one real (non-`.`,
nonempty) component: for every normalized current directory
`buildCwd cs` (the trailing-slash form the loop maintains) and every such
`~`-free relative input `p`, resolution succeeds and the result extends
the cwd — `parse_dir p (buildCwd cs) = .ok (buildCwd cs ++ t)` for some
suffix `t`. -/
theorem c4_relative_containment_amended (cs : List (List Char)) (p : String)
    (hcs : ∀ c ∈ cs, cleanComp c)
    (hne : p.data ≠ [])
    (hslash : pyFst p ≠ some '/')
    (hd1 : p ≠ "..")
    (hd2 : pyTake 3 p ≠ "../")
    (hcomps : ∀ c ∈ splitSlashL p.data, c ≠ ['.', '.'])
    (hreal : filterClean (splitSlashL p.data) ≠ [])
    (htilde : '~' ∉ p.data) :
    ∃ t, parse_dir p (buildCwd cs) = .ok (buildCwd cs ++ t) := by
  rcases hpd : p.data with _ | ⟨c0, prest⟩
  · exact absurd hpd hne
  have hc0 : c0 ≠ '/' := by
    intro h
    exact hslash (by rw [pyFst, hpd, h]; rfl)
  -- the components of the concatenated path
  set q := filterClean (splitSlashL p.data) with hq
  -- shape of the data after the leading slash
  have hshape : ∃ y ys, joinEach cs ++ p.data = y :: ys ∧ y ≠ '/' := by
    cases cs with
    | nil => exact ⟨c0, prest, by rw [joinEach, List.nil_append, hpd], hc0⟩
    | cons c1 cs' =>
      have hcc := hcs c1 (List.mem_cons_self c1 cs')
      rw [joinEach, List.append_assoc]
      exact exists_head_ne_slash c1 _ hcc.1 hcc.2.1
  obtain ⟨y, ys, hyy, hy⟩ := hshape
  have hdata : (buildCwd cs ++ p).data = '/' :: (joinEach cs ++ p.data) := by
    rw [str_data_append]; rfl
  -- evaluate the normalization
  have hnodd : ∀ c ∈ cs ++ splitSlashL p.data, c ≠ ['.', '.'] := by
    intro c hm
    rcases List.mem_append.mp hm with h | h
    · exact (hcs c h).2.2.2.1
    · exact hcomps c h
  have hnorm : normpath (buildCwd cs ++ p) = ⟨'/' :: joinSlash (cs ++ q)⟩ := by
    rw [normpath, hdata, hyy, normpathL_abs y ys hy, ← hyy]
    rw [show splitSlashL (joinEach cs ++ p.data) = cs ++ splitSlashL p.data
      from splitSlash_joinEach_append cs p.data (fun c hm => (hcs c hm).2.1)]
    rw [foldl_normStep_no_dotdot 1 (cs ++ splitSlashL p.data) hnodd []]
    rw [List.nil_append]
    rw [show filterClean (cs ++ splitSlashL p.data) =
      filterClean cs ++ filterClean (splitSlashL p.data)
      from List.filter_append _ _]
    rw [filterClean_of_clean cs hcs, ← hq]
  -- the tilde check passes
  have hnotilde : ¬(pyContains (⟨'/' :: joinSlash (cs ++ q)⟩ : String) '~' = true) := by
    simp only [pyContains, decide_eq_true_eq]
    intro hmem
    rcases List.mem_cons.mp hmem with h | h
    · exact absurd h (by decide)
    · rcases mem_joinCh '/' '~' _ h with h1 | ⟨qq, hqq, hq2⟩
      · exact absurd h1 (by decide)
      · rcases List.mem_append.mp hqq with h2 | h2
        · exact (hcs qq h2).2.2.2.2 hq2
        · have hmem' : qq ∈ splitSlashL p.data := List.mem_of_mem_filter h2
          exact htilde (mem_of_mem_splitCh '/' '~' p.data qq hmem' hq2)
  -- evaluate parse_dir down to the normalized result
  have hbranch : parse_dir p (buildCwd cs) = .ok ⟨'/' :: joinSlash (cs ++ q)⟩ := by
    rw [parse_dir.eq_def]
    dsimp only
    rw [if_neg hd1, if_neg hd2, hpd]
    dsimp only
    rw [if_pos hc0]
    rw [hnorm, if_neg hnotilde]
  -- the result extends the cwd
  refine ⟨⟨joinSlash q⟩, ?_⟩
  have hlist : ('/' :: joinEach cs) ++ joinSlash q = '/' :: joinSlash (cs ++ q) := by
    cases cs with
    | nil => rw [joinEach]; rfl
    | cons c1 cs' =>
      rw [List.cons_append]
      congr 1
      rw [joinEach_eq_joinSlash (c1 :: cs') (by simp), List.append_assoc,
        joinSlash_append (c1 :: cs') q (by simp) hreal]
      rfl
  rw [hbranch, show buildCwd cs ++ (⟨joinSlash q⟩ : String) =
    ⟨('/' :: joinEach cs) ++ joinSlash q⟩ from rfl, hlist]

theorem c4_relative_containment_amended_witness :
    ∃ t, parse_dir "x/y" "/lib/" = .ok ("/lib/" ++ t) := by
  have h := c4_relative_containment_amended [['l', 'i', 'b']] "x/y"
    (by decide) (by decide) (by decide) (by decide) (by decide) (by decide)
    (by decide) (by decide)
  exact h

/-- C3 (amended): for input starting with `../`, resolution computes the
parent of the cwd, appends the remainder of the input after the first two
characters, and then applies `os.path.normpath` — and since that
normalization resolves `..` segments, each additional leading `../`
ascends one further level rather than being inert: `../../x` against a
cwd with at least two components `.../b/c/` resolves to `x` under the
grandparent, dropping both `b` and `c`. -/
theorem c3_dotdot_chain_amended (cs : List (List Char)) (b c x : List Char)
    (hcs : ∀ cc ∈ cs, cleanComp cc) (hb : cleanComp b) (hc : cleanComp c)
    (hx : cleanComp x) :
    parse_dir ⟨'.' :: '.' :: '/' :: '.' :: '.' :: '/' :: x⟩
        (buildCwd (cs ++ [b, c])) =
      .ok ⟨'/' :: joinSlash (cs ++ [x])⟩ := by
  have hall : ∀ cc ∈ cs ++ [b, c], cleanComp cc := by
    intro cc hm
    rcases List.mem_append.mp hm with h | h
    · exact hcs cc h
    · rcases List.mem_cons.mp h with h1 | h1
      · exact h1 ▸ hb
      · rcases List.mem_cons.mp h1 with h2 | h2
        · exact h2 ▸ hc
        · cases h2
  have hd1 : (⟨'.' :: '.' :: '/' :: '.' :: '.' :: '/' :: x⟩ : String) ≠ ".." := by
    intro h
    have h' := congrArg String.data h
    rw [show (".." : String).data = ['.', '.'] from rfl] at h'
    simp at h'
  have hd2 : pyTake 3 (⟨'.' :: '.' :: '/' :: '.' :: '.' :: '/' :: x⟩ : String) =
      ("../" : String) := rfl
  -- the split of the cwd and the two [:-2] drops
  have hsplitcwd : splitSlashS (buildCwd (cs ++ [b, c])) =
      [] :: ((cs ++ [b, c]) ++ [[]]) := by
    rw [splitSlashS, show (buildCwd (cs ++ [b, c])).data =
      '/' :: joinEach (cs ++ [b, c]) from rfl]
    rw [show splitSlashL ('/' :: joinEach (cs ++ [b, c])) =
      [] :: splitSlashL (joinEach (cs ++ [b, c])) from
      splitCh_sep_cons '/' _]
    have h10 := splitSlash_joinEach_append (cs ++ [b, c]) []
      (fun cc hm => (hall cc hm).2.1)
    rw [List.append_nil] at h10
    rw [h10]
    rfl
  have hdrops : (([] : List Char) :: ((cs ++ [b, c]) ++ [[]])).dropLast.dropLast =
      [] :: (cs ++ [b]) := by
    rw [show ([] : List Char) :: ((cs ++ [b, c]) ++ [[]]) =
      (([] : List Char) :: (cs ++ [b, c])) ++ [[]] from rfl]
    rw [List.dropLast_concat]
    rw [show ([] : List Char) :: (cs ++ [b, c]) =
      (([] : List Char) :: (cs ++ [b])) ++ [c] by simp]
    rw [List.dropLast_concat]
  have hlen : (([] : List Char) :: (cs ++ [b])).length > 1 := by
    simp
  -- the reassembled parent
  have hroot : joinSlashS (([] : List Char) :: (cs ++ [b])) =
      ⟨'/' :: joinSlash (cs ++ [b])⟩ := by
    rw [joinSlashS, joinSlash_cons_of_ne [] (cs ++ [b]) (by simp)]
    rfl
  -- the concatenated path handed to normpath
  have hcat : ((⟨'/' :: joinSlash (cs ++ [b])⟩ : String) ++
      pyDrop 2 ⟨'.' :: '.' :: '/' :: '.' :: '.' :: '/' :: x⟩).data =
      '/' :: (joinSlash (cs ++ [b]) ++ '/' :: ('.' :: '.' :: '/' :: x)) := by
    rw [str_data_append]
    rfl
  -- its head after the leading slash is not a slash
  have hshape : ∃ y ys,
      joinSlash (cs ++ [b]) ++ '/' :: ('.' :: '.' :: '/' :: x) = y :: ys ∧
      y ≠ '/' := by
    cases cs with
    | nil =>
      exact exists_head_ne_slash b _ hb.1 hb.2.1
    | cons c1 cs' =>
      rw [List.cons_append,
        joinSlash_cons_of_ne c1 (cs' ++ [b]) (by simp), List.append_assoc]
      have hcc := hcs c1 (List.mem_cons_self c1 cs')
      exact exists_head_ne_slash c1 _ hcc.1 hcc.2.1
  obtain ⟨y, ys, hyy, hy⟩ := hshape
  -- the components after normalization's split
  have hsplit2 : splitSlashL (joinSlash (cs ++ [b]) ++ '/' ::
      ('.' :: '.' :: '/' :: x)) =
      (cs ++ [b]) ++ (['.', '.'] :: [x]) := by
    rw [splitSlash_joinSlash_append (cs ++ [b]) _ (by simp)
      (fun cc hm => (hall cc (by
        rcases List.mem_append.mp hm with h | h
        · exact List.mem_append.mpr (.inl h)
        · rcases List.mem_cons.mp h with h1 | h1
          · exact List.mem_append.mpr (.inr (h1 ▸ List.mem_cons_self b [c]))
          · cases h1)).2.1)]
    rw [show splitSlashL ('.' :: '.' :: '/' :: x) =
      ['.', '.'] :: splitSlashL x from
      splitCh_append '/' ['.', '.'] x (by decide)]
    rw [show splitSlashL x = [x] from splitSlash_no_sep x hx.2.1]
  -- the fold pops b and pushes x
  have hfold : ((cs ++ [b]) ++ (['.', '.'] :: [x])).foldl (normStep 1) [] =
      cs ++ [x] := by
    rw [List.foldl_append]
    rw [foldl_normStep_no_dotdot 1 (cs ++ [b])
      (fun cc hm => (hall cc (by
        rcases List.mem_append.mp hm with h | h
        · exact List.mem_append.mpr (.inl h)
        · rcases List.mem_cons.mp h with h1 | h1
          · exact List.mem_append.mpr (.inr (h1 ▸ List.mem_cons_self b [c]))
          · cases h1)).2.2.2.1) []]
    rw [List.nil_append, filterClean_of_clean (cs ++ [b])
      (fun cc hm => hall cc (by
        rcases List.mem_append.mp hm with h | h
        · exact List.mem_append.mpr (.inl h)
        · rcases List.mem_cons.mp h with h1 | h1
          · exact List.mem_append.mpr (.inr (h1 ▸ List.mem_cons_self b [c]))
          · cases h1))]
    rw [List.foldl_cons]
    have hpop : normStep 1 (cs ++ [b]) ['.', '.'] = cs := by
      rw [normStep]
      rw [if_neg (by decide : ¬(['.', '.'] = ([] : List Char) ∨
        ['.', '.'] = ['.']))]
      rw [if_neg (by
        push_neg
        refine ⟨by simp, by simp, ?_⟩
        rw [List.getLast?_concat]
        intro hcontra
        exact hb.2.2.2.1 (by injection hcontra))]
      rw [if_pos (by simp : cs ++ [b] ≠ [])]
      exact List.dropLast_concat
    rw [hpop, List.foldl_cons]
    have hpush : normStep 1 cs x = cs ++ [x] := by
      rw [normStep]
      rw [if_neg (by
        push_neg
        exact ⟨hx.1, hx.2.2.1⟩)]
      rw [if_pos (Or.inl hx.2.2.2.1)]
    rw [hpush]
    rfl
  -- the tilde check passes
  have hnotilde :
      ¬(pyContains (⟨'/' :: joinSlash (cs ++ [x])⟩ : String) '~' = true) := by
    simp only [pyContains, decide_eq_true_eq]
    intro hmem
    rcases List.mem_cons.mp hmem with h | h
    · exact absurd h (by decide)
    · rcases mem_joinCh '/' '~' _ h with h1 | ⟨qq, hqq, hq2⟩
      · exact absurd h1 (by decide)
      · rcases List.mem_append.mp hqq with h2 | h2
        · exact (hcs qq h2).2.2.2.2 hq2
        · rcases List.mem_cons.mp h2 with h3 | h3
          · exact hx.2.2.2.2 (h3 ▸ hq2)
          · cases h3
  -- assemble
  rw [parse_dir.eq_def]
  dsimp only
  rw [if_neg hd1, if_pos hd2, hsplitcwd, hdrops, if_pos hlen, hroot]
  dsimp only
  rw [show ((⟨'/' :: joinSlash (cs ++ [b])⟩ : String) ++
      pyDrop 2 ⟨'.' :: '.' :: '/' :: '.' :: '.' :: '/' :: x⟩) =
    (⟨'/' :: (joinSlash (cs ++ [b]) ++ '/' :: ('.' :: '.' :: '/' :: x))⟩ :
      String) from congrArg String.mk hcat ▸ str_eta _ ▸ rfl]
  rw [show normpath ⟨'/' :: (joinSlash (cs ++ [b]) ++ '/' ::
      ('.' :: '.' :: '/' :: x))⟩ = ⟨'/' :: joinSlash (cs ++ [x])⟩ by
    rw [normpath]
    rw [show (⟨'/' :: (joinSlash (cs ++ [b]) ++ '/' ::
      ('.' :: '.' :: '/' :: x))⟩ : String).data =
      '/' :: (joinSlash (cs ++ [b]) ++ '/' :: ('.' :: '.' :: '/' :: x))
      from rfl]
    rw [hyy, normpathL_abs y ys hy, ← hyy, hsplit2, hfold]]
  rw [if_neg hnotilde]

theorem c3_dotdot_chain_amended_witness :
    parse_dir "../../x" "/b/c/" = .ok "/x" := by
  have h := c3_dotdot_chain_amended [] ['b'] ['c'] ['x']
    (by intro cc hm; cases hm) (by decide) (by decide) (by decide)
  exact h
